import Mathlib

/-!
Verification of the lab-report text parser (`src/parser.js`) of the
`lab_tracker` repository.

Strings are modelled as `List Char`; JavaScript numbers are modelled as
rationals (`ℚ`), which is exact for the small decimal literals the parser
manipulates.  Every function below is a direct shallow embedding of the
corresponding JavaScript function; comments quote the source lines being
modelled.
-/

namespace LabTracker

/-- Character class `[0-9]` used throughout `parser.js`. -/
def isDigitChar (c : Char) : Bool := decide ('0' ≤ c ∧ c ≤ '9')

/-- Character class `[A-Z]` (regex `[^A-Z]` removal in `looksLikePanelHeader`). -/
def isUpperAZ (c : Char) : Bool := decide ('A' ≤ c ∧ c ≤ 'Z')

/-- Character class `[a-z0-9]` used by `normalizeKey`'s replacement regex. -/
def isKeyChar (c : Char) : Bool :=
  decide (('a' ≤ c ∧ c ≤ 'z') ∨ ('0' ≤ c ∧ c ≤ '9'))

/-- JavaScript whitespace class `\s` (also used by `String.prototype.trim`):
space, tab, line feed, carriage return, vertical tab, form feed, plus the
common non-ASCII members (NBSP, BOM, LS, PS). -/
def jsWs (c : Char) : Bool :=
  decide (c = ' ' ∨ c = '\t' ∨ c = '\n' ∨ c = '\r' ∨ c = '\x0b' ∨ c = '\x0c' ∨
    c = '\u00A0' ∨ c = '\uFEFF' ∨ c = '\u2028' ∨ c = '\u2029')

/-- ASCII model of `String.prototype.toLowerCase` (all characters the parser
meets are ASCII; `A`-`Z` map to `a`-`z`, everything else is fixed). -/
def jsToLower (c : Char) : Char :=
  if 'A' ≤ c ∧ c ≤ 'Z' then Char.ofNat (c.toNat + 32) else c

/-- Drop a maximal run of characters satisfying `p` from the END of the list
(used to model `trim` and the `_+$` part of `normalizeKey`'s regex). -/
def dropTrailing (p : Char → Bool) : List Char → List Char
  | [] => []
  | c :: rest =>
    match dropTrailing p rest with
    | [] => if p c then [] else [c]
    | r => c :: r

/-- `String.prototype.trim`: remove leading and trailing whitespace. -/
def jsTrim (l : List Char) : List Char :=
  dropTrailing jsWs (l.dropWhile jsWs)

/-- One state-machine step of `replace(/\s+/g, " ")`: `inRun` records whether
the previous character belonged to a whitespace run already replaced. -/
def collapseWsGo : Bool → List Char → List Char
  | _, [] => []
  | inRun, c :: rest =>
    if jsWs c then
      if inRun then collapseWsGo true rest
      else ' ' :: collapseWsGo true rest
    else c :: collapseWsGo false rest

/-- `line.replace(/\s+/g, " ").trim()` — used both by `parseMeasurementLine`
(line 67) and by the driver when recording a panel header (line 126). -/
def normSpaces (l : List Char) : List Char :=
  jsTrim (collapseWsGo false l)

/-- One state-machine step of `replace(/[^a-z0-9]+/g, "_")` from
`normalizeKey` (line 12): each maximal run of non-`[a-z0-9]` characters
becomes a single underscore. -/
def collapseNonKeyGo : Bool → List Char → List Char
  | _, [] => []
  | inRun, c :: rest =>
    if isKeyChar c then c :: collapseNonKeyGo false rest
    else
      if inRun then collapseNonKeyGo true rest
      else '_' :: collapseNonKeyGo true rest

def collapseNonKey (l : List Char) : List Char := collapseNonKeyGo false l

/-- `replace(/\([^)]*\)/g, "")` from `normalizeKey` (line 11): each `(`
that has a matching later `)` is removed together with everything up to and
including the first such `)`; a `(` with no later `)` is kept (the regex
cannot match there).  The `Nat` argument is fuel (the input length always
suffices; one character is consumed per step). -/
def stripParensGo : Nat → List Char → List Char
  | _, [] => []
  | 0, l => l
  | fuel + 1, c :: rest =>
    if c = '(' then
      if rest.contains ')' then
        stripParensGo fuel ((rest.dropWhile (fun d => d != ')')).drop 1)
      else c :: stripParensGo fuel rest
    else c :: stripParensGo fuel rest

def stripParens (l : List Char) : List Char := stripParensGo l.length l

/-- `replace(/^_+|_+$/g, "")` from `normalizeKey` (line 13). -/
def stripEdgeUnderscores (l : List Char) : List Char :=
  dropTrailing (fun c => c == '_') (l.dropWhile (fun c => c == '_'))

/-- `normalizeKey` (parser.js lines 8-15):
lowercase, drop parenthetical groups, replace non-`[a-z0-9]` runs with `_`,
strip edge underscores, trim. -/
def normalizeKey (name : List Char) : List Char :=
  jsTrim (stripEdgeUnderscores (collapseNonKey (stripParens (name.map jsToLower))))

/-! ## Numeric token parsing (JavaScript `Number(...)` and regex captures) -/

def digitVal (c : Char) : Nat := c.toNat - '0'.toNat

def digitsToNat (l : List Char) : Nat :=
  l.foldl (fun a c => 10 * a + digitVal c) 0

def isHexDigitChar (c : Char) : Bool :=
  isDigitChar c || decide (('a' ≤ c ∧ c ≤ 'f') ∨ ('A' ≤ c ∧ c ≤ 'F'))

def hexDigitVal (c : Char) : Nat :=
  if isDigitChar c then digitVal c
  else if decide ('a' ≤ c ∧ c ≤ 'f') then c.toNat - 'a'.toNat + 10
  else c.toNat - 'A'.toNat + 10

def hexToNat (l : List Char) : Nat :=
  l.foldl (fun a c => 16 * a + hexDigitVal c) 0

def isOctDigitChar (c : Char) : Bool := decide ('0' ≤ c ∧ c ≤ '7')

def octToNat (l : List Char) : Nat :=
  l.foldl (fun a c => 8 * a + digitVal c) 0

def isBinDigitChar (c : Char) : Bool := decide (c = '0' ∨ c = '1')

def binToNat (l : List Char) : Nat :=
  l.foldl (fun a c => 2 * a + digitVal c) 0

/-- Full match against the regex `[0-9]+(?:\.[0-9]+)?` (used by the
`isRefStart` trailing-numeric test on line 97 and inside `parseRef`). -/
def isPlainNumeric (t : List Char) : Bool :=
  let ds := t.takeWhile isDigitChar
  let r := t.dropWhile isDigitChar
  !ds.isEmpty &&
    (r.isEmpty ||
      (match r with
       | '.' :: fr => !fr.isEmpty && fr.all isDigitChar
       | _ => false))

/-- Value of a string that fully matches `[0-9]+(?:\.[0-9]+)?` (what
JavaScript `Number(...)` yields on such a regex capture):
`ds.fs` denotes `(ds*10^|fs| + fs) / 10^|fs|`.  (`mkRat` is used instead of
`+`/`/` on `ℚ` so the definition evaluates inside the kernel; the value is
the same rational.) -/
def parsePlainNum (t : List Char) : ℚ :=
  let ds := t.takeWhile isDigitChar
  match t.dropWhile isDigitChar with
  | '.' :: fr =>
    mkRat (digitsToNat (ds ++ fr.takeWhile isDigitChar))
      (10 ^ (fr.takeWhile isDigitChar).length)
  | _ => mkRat (digitsToNat ds) 1

/-- Exponent part of a JS decimal literal: optional sign then one or more
digits, consuming the whole remaining string. -/
def parseExpTail (s : List Char) : Option Int :=
  let sgn : Int := match s with | '-' :: _ => -1 | _ => 1
  let rest := match s with | '-' :: r => r | '+' :: r => r | r => r
  if !rest.isEmpty && rest.all isDigitChar then some (sgn * digitsToNat rest)
  else none

/-- The rational `m * 10^e` for a mantissa `m : ℕ` and a (possibly
negative) decimal exponent `e : ℤ`, built with `mkRat` so that it evaluates
inside the kernel. -/
def decValue (m : Nat) (e : Int) : ℚ :=
  if 0 ≤ e then mkRat (m * 10 ^ e.toNat) 1 else mkRat m (10 ^ (-e).toNat)

/-- Unsigned JS decimal literal: `digits [. digits*] [exponent]` or
`. digits+ [exponent]`.  A literal `I.F e T` denotes
`(I*10^|F| + F) * 10^(T - |F|)`, and `digitsToNat (I ++ F)` is exactly
`I*10^|F| + F`.  (The `Infinity` alternative is unreachable here — the
parser only feeds this function tokens that begin with a digit — and is
modelled as "no finite value", i.e. `none`.) -/
def jsUnsignedDec (s : List Char) : Option ℚ :=
  let intDigits := s.takeWhile isDigitChar
  match s.dropWhile isDigitChar with
  | [] => if intDigits.isEmpty then none else some (decValue (digitsToNat intDigits) 0)
  | '.' :: rest2 =>
    let fracDigits := rest2.takeWhile isDigitChar
    if intDigits.isEmpty && fracDigits.isEmpty then none
    else
      let m := digitsToNat (intDigits ++ fracDigits)
      let k : Int := fracDigits.length
      match rest2.dropWhile isDigitChar with
      | [] => some (decValue m (-k))
      | e :: rest4 =>
        if e = 'e' ∨ e = 'E' then
          (parseExpTail rest4).map (fun t => decValue m (t - k))
        else none
  | e :: rest2 =>
    if (e = 'e' ∨ e = 'E') ∧ !intDigits.isEmpty then
      (parseExpTail rest2).map (fun t => decValue (digitsToNat intDigits) t)
    else none

/-- Signed JS decimal literal (sign is allowed only for the decimal form). -/
def jsDecNumber (s : List Char) : Option ℚ :=
  match s with
  | '-' :: r => (jsUnsignedDec r).map Neg.neg
  | '+' :: r => jsUnsignedDec r
  | r => jsUnsignedDec r

/-- JavaScript `Number(tok)` on a token, returning `none` for `NaN`.
Handles the empty string (`Number("") = 0`), the `0x`/`0o`/`0b` integer
literal prefixes, and signed decimal literals with optional fraction and
exponent.  (The tokens reaching it in `parseMeasurementLine` always start
with a digit and contain no whitespace.) -/
def jsNumber (tok : List Char) : Option ℚ :=
  let s := jsTrim tok
  match s with
  | [] => some 0
  | '0' :: x :: rest =>
    if x = 'x' ∨ x = 'X' then
      if !rest.isEmpty && rest.all isHexDigitChar then some (mkRat (hexToNat rest) 1) else none
    else if x = 'o' ∨ x = 'O' then
      if !rest.isEmpty && rest.all isOctDigitChar then some (mkRat (octToNat rest) 1) else none
    else if x = 'b' ∨ x = 'B' then
      if !rest.isEmpty && rest.all isBinDigitChar then some (mkRat (binToNat rest) 1) else none
    else jsDecNumber s
  | _ => jsDecNumber s

/-! ## Reference-range parsing, flag computation, header heuristic -/

/-- Result shape of `parseRef` (parser.js lines 17-33). -/
structure RefParse where
  refLow : Option ℚ
  refHigh : Option ℚ
  refText : Option (List Char)
deriving DecidableEq

/-- Full match against `^([<>]=?)\s*([0-9]+(?:\.[0-9]+)?)$` (line 22). -/
def isIneqRef (s : List Char) : Bool :=
  match s with
  | c :: rest =>
    (c = '<' || c = '>') &&
      isPlainNumeric ((match rest with | '=' :: r => r | r => r).dropWhile jsWs)
  | [] => false

/-- Greedy prefix match of `[0-9]+(?:\.[0-9]+)?`, returning value and rest.
(The shorter integer-only alternative never has to be retried here: after it
the rest starts with `.`, which can never begin the `\s*-` that follows in
the range regex.) -/
def parseNumGreedy (s : List Char) : Option (ℚ × List Char) :=
  let ds := s.takeWhile isDigitChar
  if ds.isEmpty then none
  else
    match s.dropWhile isDigitChar with
    | '.' :: fr =>
      let fs := fr.takeWhile isDigitChar
      if fs.isEmpty then some (mkRat (digitsToNat ds) 1, '.' :: fr)
      else some (mkRat (digitsToNat (ds ++ fs)) (10 ^ fs.length),
        fr.dropWhile isDigitChar)
    | r => some (mkRat (digitsToNat ds) 1, r)

/-- Full match against `^(num)\s*-\s*(num)$` (line 26), returning the two
captured numbers. -/
def matchRange (s : List Char) : Option (ℚ × ℚ) :=
  match parseNumGreedy s with
  | none => none
  | some (lo, rest) =>
    match rest.dropWhile jsWs with
    | '-' :: rest2 =>
      let rest3 := rest2.dropWhile jsWs
      if isPlainNumeric rest3 then some (lo, parsePlainNum rest3) else none
    | _ => none

/-- `parseRef` (parser.js lines 17-33).  `none` models the `null` argument;
`some []` models the empty string (both are falsy). -/
def parseRef (refStr : Option (List Char)) : RefParse :=
  match refStr with
  | none => ⟨none, none, none⟩
  | some rs =>
    if rs.isEmpty then ⟨none, none, none⟩
    else
      let s := jsTrim rs
      if isIneqRef s then ⟨none, none, some s⟩
      else
        match matchRange s with
        | some (lo, hi) => ⟨some lo, some hi, none⟩
        | none => ⟨none, none, some s⟩

inductive Flag where
  | L
  | H
deriving DecidableEq

/-- `computeFlag` (parser.js lines 35-42).  `value = none` models "not a
number / NaN"; the `refText` parameter is accepted and ignored, exactly as
in the source. -/
def computeFlag (value : Option ℚ) (refLow refHigh : Option ℚ)
    (refText : Option (List Char)) : Option Flag :=
  match value with
  | none => none
  | some v =>
    match refLow with
    | some lo => if v < lo then some Flag.L else
        match refHigh with
        | some hi => if hi < v then some Flag.H else none
        | none => none
    | none =>
      match refHigh with
      | some hi => if hi < v then some Flag.H else none
      | none => none

/-- `looksLikePanelHeader` (parser.js lines 44-54).  The final comparison is
`caps >= Math.min(8, s.length * 0.5)`, computed exactly (JS doubles are
exact for these magnitudes), so it is modelled over `ℚ`. -/
def looksLikePanelHeader (line : List Char) : Bool :=
  if line.isEmpty then false
  else
    let s := jsTrim line
    if s.length < 4 || s.length > 45 then false
    else if s.any isDigitChar then false
    else
      let caps := (s.filter isUpperAZ).length
      -- `s.length * 0.5` is exact in JS doubles for these magnitudes and
      -- equals `length / 2`, written `mkRat s.length 2` so that the
      -- comparison evaluates inside the kernel.
      decide ((min 8 (mkRat s.length 2) : ℚ) ≤ (caps : ℚ))

/-! ## The measurement-line parser -/

/-- Split before the first decimal digit: the leftmost match of the regex
`([0-9]+(?:\.[0-9]+)?)` (line 71) starts exactly at the first digit of the
string; `valueIdx` / `slice` (lines 74-78) are modelled by returning the
prefix before that digit and the suffix from it on. -/
def splitAtFirstDigit : List Char → Option (List Char × List Char)
  | [] => none
  | c :: rest =>
    if isDigitChar c then some ([], c :: rest)
    else
      match splitAtFirstDigit rest with
      | some (pre, suf) => some (c :: pre, suf)
      | none => none

/-- `String.prototype.split(" ")` (line 81). -/
def splitOnSpace : List Char → List (List Char)
  | [] => [[]]
  | c :: rest =>
    if c = ' ' then [] :: splitOnSpace rest
    else
      match splitOnSpace rest with
      | t :: ts => (c :: t) :: ts
      | [] => [[c]]

/-- `Array.prototype.join(" ")` (lines 103-104). -/
def joinSpace : List (List Char) → List Char
  | [] => []
  | [t] => t
  | t :: ts => t ++ ' ' :: joinSpace ts

/-- The `isRefStart` test of the token loop (lines 93-97): the token
contains `-`, starts with `<` or `>`, or is a bare numeric token in last
position. -/
def isRefStartTok (t : List Char) (isLast : Bool) : Bool :=
  t.contains '-' ||
  (match t with | c :: _ => c = '<' || c = '>' | [] => false) ||
  (isPlainNumeric t && isLast)

/-- The token loop of lines 87-101: tokens before the first
reference-segment token form the unit segment, that token and everything
after it form the reference segment. -/
def splitUnitRef : List (List Char) → List (List Char) × List (List Char)
  | [] => ([], [])
  | t :: ts =>
    if isRefStartTok t ts.isEmpty then ([], t :: ts)
    else
      let (u, r) := splitUnitRef ts
      (t :: u, r)

/-- The record produced by `parseMeasurementLine` (panel is stamped later by
the driver).  `value = none` would be the NaN sentinel of the data model; the
parser never emits it (claim C10). -/
structure Measurement where
  key : List Char
  name : List Char
  value : Option ℚ
  unit : Option (List Char)
  refLow : Option ℚ
  refHigh : Option ℚ
  refText : Option (List Char)
  flag : Option Flag
  rawLine : List Char
deriving DecidableEq

/-- `unitTokens.join(" ").trim() || null` (lines 103-104). -/
def joinedOrNull (toks : List (List Char)) : Option (List Char) :=
  let j := jsTrim (joinSpace toks)
  if j.isEmpty then none else some j

/-- `parseMeasurementLine` (parser.js lines 56-113).  `splitOnSpace` always
returns at least one piece, so `headD` / `tail` model `tokens[0]` and the
loop over `tokens[1..]`. -/
def parseMeasurementLine (line : List Char) : Option Measurement :=
  let s := normSpaces line
  if s.isEmpty then none
  else
    match splitAtFirstDigit s with
    | none => none
    | some (pre, suf) =>
      let namePart := jsTrim pre
      if namePart.isEmpty then none
      else
        let afterValue := jsTrim suf
        let tokens := splitOnSpace afterValue
        match jsNumber (tokens.headD []) with
        | none => none
        | some v =>
          let (unitToks, refToks) := splitUnitRef tokens.tail
          let rp := parseRef (joinedOrNull refToks)
          some
            { key := normalizeKey namePart
              name := namePart
              value := some v
              unit := joinedOrNull unitToks
              refLow := rp.refLow
              refHigh := rp.refHigh
              refText := rp.refText
              flag := computeFlag (some v) rp.refLow rp.refHigh rp.refText
              rawLine := s }

/-! ## The report driver -/

/-- A measurement stamped with its panel (`{ ...m, panel }`, line 131). -/
structure PanelMeasurement extends Measurement where
  panel : List Char
deriving DecidableEq

/-- `rawText.split(/\r?\n/)` (line 117): a line ends at `\n`, optionally
preceded by `\r`; a lone `\r` is not a separator. -/
def splitLines : List Char → List (List Char)
  | [] => [[]]
  | '\r' :: '\n' :: rest => [] :: splitLines rest
  | '\n' :: rest => [] :: splitLines rest
  | c :: rest =>
    match splitLines rest with
    | t :: ts => (c :: t) :: ts
    | [] => [[c]]

/-- Lines 116-119: split, trim each line, drop empty lines. -/
def reportLines (rawText : List Char) : List (List Char) :=
  ((splitLines rawText).map jsTrim).filter (fun l => !l.isEmpty)

def strGeneral : List Char := "General".toList

/-- The driver loop of lines 121-132 with its running `panel` accumulator. -/
def parseLinesGo (panel : List Char) : List (List Char) → List PanelMeasurement
  | [] => []
  | l :: ls =>
    if looksLikePanelHeader l then parseLinesGo (normSpaces l) ls
    else
      match parseMeasurementLine l with
      | some m => { toMeasurement := m, panel := panel } :: parseLinesGo panel ls
      | none => parseLinesGo panel ls

/-- `parseReportText` (parser.js lines 115-135). -/
def parseReportText (rawText : List Char) : List PanelMeasurement :=
  parseLinesGo strGeneral (reportLines rawText)

/-! ## The collection-timestamp extractor

`extractCollectedAt` (parser.js lines 138-154) tries two regular
expressions against the whole text and returns the captures of the first
(leftmost) match of the first pattern that matches:

  1. `Collected\s*On\s*[:\-]?\s*([0-9]{1,2}\/[0-9]{1,2}\/[0-9]{2,4})\s+([0-9]{1,2}:[0-9]{2}\s*(?:AM|PM|am|pm)?)`
  2. `Collection\s*Date\s*[:\-]?\s*([0-9]{1,2}\/[0-9]{1,2}\/[0-9]{2,4})`

The matchers below reproduce the backtracking regex semantics: quantified
digit groups are tried longest-first, each alternative continuing with the
rest of the pattern; `\s*` runs are consumed greedily (always safe here
because the following pattern element can never start with whitespace). -/

/-- Match a literal string, returning the rest. -/
def matchLit : List Char → List Char → Option (List Char)
  | [], s => some s
  | _ :: _, [] => none
  | c :: cs, d :: ds => if c = d then matchLit cs ds else none

/-- Take exactly `n` digits. -/
def takeDigitsN : Nat → List Char → Option (List Char × List Char)
  | 0, s => some ([], s)
  | n + 1, c :: s =>
    if isDigitChar c then
      match takeDigitsN n s with
      | some (d, r) => some (c :: d, r)
      | none => none
    else none
  | _ + 1, [] => none

/-- `[0-9]{lo,hi}` greedily: candidate (capture, rest) pairs, longest first.
`counts` lists the lengths to try, e.g. `[2, 1]` for `{1,2}`. -/
def digitCandidates (counts : List Nat) (s : List Char) :
    List (List Char × List Char) :=
  counts.filterMap (fun n => takeDigitsN n s)

/-- `([0-9]{1,2}\/[0-9]{1,2}\/[0-9]{2,4})`: candidate (capture, rest) pairs
in backtracking order. -/
def dateCandidates (s : List Char) : List (List Char × List Char) :=
  (digitCandidates [2, 1] s).flatMap fun p1 =>
    match p1.2 with
    | '/' :: r1 =>
      (digitCandidates [2, 1] r1).flatMap fun p2 =>
        match p2.2 with
        | '/' :: r2 =>
          (digitCandidates [4, 3, 2] r2).map fun p3 =>
            (p1.1 ++ '/' :: p2.1 ++ '/' :: p3.1, p3.2)
        | _ => []
    | _ => []

/-- `AM|PM|am|pm`. -/
def matchAmPm : List Char → Option (List Char × List Char)
  | 'A' :: 'M' :: r => some (['A', 'M'], r)
  | 'P' :: 'M' :: r => some (['P', 'M'], r)
  | 'a' :: 'm' :: r => some (['a', 'm'], r)
  | 'p' :: 'm' :: r => some (['p', 'm'], r)
  | _ => none

/-- `([0-9]{1,2}:[0-9]{2}\s*(?:AM|PM|am|pm)?)`: candidate (capture, rest)
pairs.  The greedy `\s*` stays inside the capture even when the optional
am/pm group matches empty. -/
def timeCandidates (s : List Char) : List (List Char × List Char) :=
  (digitCandidates [2, 1] s).flatMap fun ph =>
    match ph.2 with
    | ':' :: r1 =>
      match takeDigitsN 2 r1 with
      | some (mm, r2) =>
        let ws := r2.takeWhile jsWs
        let r3 := r2.dropWhile jsWs
        match matchAmPm r3 with
        | some (ap, r4) => [(ph.1 ++ ':' :: mm ++ ws ++ ap, r4)]
        | none => [(ph.1 ++ ':' :: mm ++ ws, r3)]
      | none => []
    | _ => []

/-- `\s*[:\-]?\s*` after the label: greedy whitespace, the optional
punctuation, greedy whitespace again (backtracking can never help: `:`/`-`
are neither whitespace nor digits). -/
def skipLabelSep (s : List Char) : List Char :=
  let s1 := s.dropWhile jsWs
  match s1 with
  | c :: t => if c = ':' ∨ c = '-' then t.dropWhile jsWs else s1
  | [] => s1

/-- Try pattern 1 anchored at the start of `s`; returns (datePart, timePart). -/
def matchP1At (s : List Char) : Option (List Char × List Char) :=
  match matchLit "Collected".toList s with
  | none => none
  | some r1 =>
    match matchLit "On".toList (r1.dropWhile jsWs) with
    | none => none
    | some r2 =>
      (dateCandidates (skipLabelSep r2)).findSome? fun pd =>
        match pd.2 with
        | c :: _ =>
          if jsWs c then
            (timeCandidates (pd.2.dropWhile jsWs)).findSome? fun pt =>
              some (pd.1, pt.1)
          else none
        | [] => none

/-- Try pattern 2 anchored at the start of `s`; returns the datePart. -/
def matchP2At (s : List Char) : Option (List Char) :=
  match matchLit "Collection".toList s with
  | none => none
  | some r1 =>
    match matchLit "Date".toList (r1.dropWhile jsWs) with
    | none => none
    | some r2 =>
      (dateCandidates (skipLabelSep r2)).head?.map (fun pd => pd.1)

/-- Leftmost match of pattern 1 over the whole text. -/
def scanP1 : List Char → Option (List Char × List Char)
  | [] => none
  | c :: rest =>
    match matchP1At (c :: rest) with
    | some x => some x
    | none => scanP1 rest

/-- Leftmost match of pattern 2 over the whole text. -/
def scanP2 : List Char → Option (List Char)
  | [] => none
  | c :: rest =>
    match matchP2At (c :: rest) with
    | some x => some x
    | none => scanP2 rest

/-- The `{datePart, timePart}` result object. -/
structure CollectedAt where
  datePart : List Char
  timePart : List Char
deriving DecidableEq

/-- `extractCollectedAt` (parser.js lines 138-154): first pattern that
matches wins; `timePart` falls back to `"00:00"` when the matched pattern
has no time group (`m[2] || "00:00"`). -/
def extractCollectedAt (rawText : List Char) : Option CollectedAt :=
  match scanP1 rawText with
  | some (d, t) => some ⟨d, t⟩
  | none =>
    match scanP2 rawText with
    | some d => some ⟨d, "00:00".toList⟩
    | none => none

/-! ## Specification-side definitions

These follow the spec's words (not the source) and are compared against the
source embedding in the refinement-style claims. -/

/-- Claim C2's header predicate, exactly as the claim words it: non-empty,
length between 4 and 45, no digit, and uppercase count at least
`min(8, floor(length * 0.5))` (`Nat` division is the floor). -/
def headerSpecC2 (l : List Char) : Bool :=
  !l.isEmpty && decide (4 ≤ l.length) && decide (l.length ≤ 45) &&
  l.all (fun c => !isDigitChar c) &&
  decide (min 8 (l.length / 2) ≤ (l.filter isUpperAZ).length)

/-- Claim C4's well-formedness predicate on a key (amended: possibly
empty): every character is in `[a-z0-9_]`, and there is no leading and no
trailing underscore. -/
def keyWF (k : List Char) : Bool :=
  k.all (fun c => isKeyChar c || c == '_') &&
  decide (k.head? ≠ some '_') && decide (k.getLast? ≠ some '_')

/-- Claim C7's panel function: the whitespace-normalized text of the last
header among the lines already seen, or the default (`"General"`) when no
header has been seen. -/
def lastHeaderPanel (dflt : List Char) : List (List Char) → List Char
  | [] => dflt
  | l :: ls => lastHeaderPanel (if looksLikePanelHeader l then normSpaces l else dflt) ls

/-- Claim C7's expected output: for each line index in order, a header line
produces no record, and a line that parses produces its record stamped with
the panel of the nearest preceding header (default `dflt`). -/
def specRecords (dflt : List Char) (lines : List (List Char)) :
    List PanelMeasurement :=
  (List.range lines.length).filterMap fun i =>
    match lines[i]? with
    | none => none
    | some l =>
      if looksLikePanelHeader l then none
      else
        match parseMeasurementLine l with
        | none => none
        | some m => some { toMeasurement := m, panel := lastHeaderPanel dflt (lines.take i) }

/-- No two adjacent characters are both outside `[a-z0-9]` (an invariant of
`collapseNonKey`'s output used to prove `normalizeKey` idempotent). -/
def noTwoNonKey : List Char → Prop
  | [] => True
  | [_] => True
  | c :: d :: rest => (isKeyChar c = true ∨ isKeyChar d = true) ∧ noTwoNonKey (d :: rest)

/-! ## Helper lemmas -/

/-- `caps ≥ min(8, len/2)` over `ℚ` is `min(16, len) ≤ 2·caps` over `ℕ`. -/
theorem ratHalf_le_iff (n k : Nat) :
    ((min 8 (mkRat n 2) : ℚ) ≤ (k : ℚ)) ↔ min 16 n ≤ 2 * k := by
  rw [Rat.mkRat_eq_div, min_le_iff, min_le_iff]
  have h1 : ((8 : ℚ) ≤ (k : ℚ)) ↔ 16 ≤ 2 * k := by
    rw [show (8 : ℚ) = ((8 : Nat) : ℚ) by norm_num, Nat.cast_le]
    omega
  have h2 : (((n : Int) : ℚ) / ((2 : Nat) : ℚ) ≤ (k : ℚ)) ↔ n ≤ 2 * k := by
    rw [div_le_iff₀ (by norm_num : (0 : ℚ) < ((2 : Nat) : ℚ))]
    rw [show ((k : ℚ) * ((2 : Nat) : ℚ)) = (((2 * k : Nat) : Int) : ℚ) by push_cast; ring]
    rw [show (((n : Int)) : ℚ) ≤ (((2 * k : Nat) : Int) : ℚ) ↔ (n : Int) ≤ ((2 * k : Nat) : Int)
      from Int.cast_le]
    omega
  rw [h1, h2]

theorem mem_dropTrailing {c : Char} {p : Char → Bool} :
    ∀ l, c ∈ dropTrailing p l → c ∈ l := by
  intro l
  induction l with
  | nil => intro h; simpa [dropTrailing] using h
  | cons d t ih =>
    intro h
    simp only [dropTrailing] at h
    rcases hdt : dropTrailing p t with _ | ⟨x, xs⟩
    · rw [hdt] at h
      by_cases hp : p d
      · simp [if_pos hp] at h
      · simp only [if_neg hp] at h
        rw [List.mem_singleton] at h
        subst h
        exact List.mem_cons_self c t
    · rw [hdt] at h
      rcases List.mem_cons.mp h with rfl | h
      · exact List.mem_cons_self c t
      · exact List.mem_cons_of_mem d (ih (by rw [hdt]; exact h))

theorem mem_collapseNonKeyGo {c : Char} :
    ∀ (b : Bool) (l : List Char), c ∈ collapseNonKeyGo b l →
      isKeyChar c = true ∨ c = '_' := by
  intro b l
  induction l generalizing b with
  | nil => intro h; simp [collapseNonKeyGo] at h
  | cons d t ih =>
    intro h
    simp only [collapseNonKeyGo] at h
    by_cases hd : isKeyChar d
    · rw [if_pos hd] at h
      rcases List.mem_cons.mp h with rfl | h
      · exact Or.inl hd
      · exact ih false h
    · rw [if_neg hd] at h
      cases b with
      | true =>
        rw [if_pos rfl] at h
        exact ih true h
      | false =>
        rw [if_neg (by simp)] at h
        rcases List.mem_cons.mp h with rfl | h
        · exact Or.inr rfl
        · exact ih true h

theorem dropTrailing_head (p : Char → Bool) :
    ∀ l : List Char, dropTrailing p l = [] ∨ (dropTrailing p l).head? = l.head? := by
  intro l
  cases l with
  | nil => exact Or.inl rfl
  | cons d t =>
    simp only [dropTrailing]
    rcases hdt : dropTrailing p t with _ | ⟨x, xs⟩
    · by_cases hp : p d
      · rw [if_pos hp]; exact Or.inl rfl
      · rw [if_neg hp]; exact Or.inr rfl
    · exact Or.inr rfl

theorem dropTrailing_getLast_not {p : Char → Bool} {c : Char} :
    ∀ l : List Char, (dropTrailing p l).getLast? = some c → p c = false := by
  intro l
  induction l with
  | nil => intro h; simp [dropTrailing] at h
  | cons d t ih =>
    intro h
    simp only [dropTrailing] at h
    rcases hdt : dropTrailing p t with _ | ⟨x, xs⟩
    · rw [hdt] at h
      by_cases hp : p d
      · rw [if_pos hp] at h; simp at h
      · rw [if_neg hp] at h
        simp only [List.getLast?_singleton, Option.some.injEq] at h
        subst h
        simpa using hp
    · rw [hdt] at h
      rw [List.getLast?_cons_cons] at h
      exact ih (by rw [hdt]; exact h)

theorem dropWhile_head_not (p : Char → Bool) {c : Char} :
    ∀ l : List Char, ((l.dropWhile p).head? = some c) → p c = false := by
  intro l
  induction l with
  | nil => intro h; simp at h
  | cons d t ih =>
    intro h
    rw [List.dropWhile_cons] at h
    by_cases hp : p d
    · rw [if_pos hp] at h
      exact ih h
    · rw [if_neg hp] at h
      simp only [List.head?_cons, Option.some.injEq] at h
      subst h
      simpa using hp

theorem dropTrailing_eq_self {p : Char → Bool} :
    ∀ {l : List Char}, (∀ c ∈ l, p c = false) → dropTrailing p l = l := by
  intro l
  induction l with
  | nil => intro _; rfl
  | cons d t ih =>
    intro h
    simp only [dropTrailing]
    rw [ih (fun c hc => h c (List.mem_cons_of_mem d hc))]
    cases t with
    | nil => simp [h d (List.mem_cons_self d [])]
    | cons x xs => rfl

theorem jsTrim_eq_self_of_no_ws {l : List Char} (h : ∀ c ∈ l, jsWs c = false) :
    jsTrim l = l := by
  unfold jsTrim
  have h1 : l.dropWhile jsWs = l := by
    cases l with
    | nil => rfl
    | cons d t =>
      rw [List.dropWhile_cons, if_neg (by simp [h d (List.mem_cons_self d t)])]
  rw [h1]
  exact dropTrailing_eq_self h

theorem keyChar_not_ws {c : Char} (h : isKeyChar c = true ∨ c = '_') :
    jsWs c = false := by
  rcases h with h | rfl
  · rw [isKeyChar, decide_eq_true_eq] at h
    rw [jsWs]
    apply decide_eq_false
    rintro (rfl | rfl | rfl | rfl | rfl | rfl | rfl | rfl | rfl | rfl) <;>
      rcases h with ⟨h1, h2⟩ | ⟨h1, h2⟩ <;>
        first
          | exact absurd h1 (by decide)
          | exact absurd h2 (by decide)
  · decide

theorem mem_stripEdgeUnderscores {c : Char} {l : List Char}
    (h : c ∈ stripEdgeUnderscores l) : c ∈ l := by
  unfold stripEdgeUnderscores at h
  exact (List.dropWhile_sublist _).subset (mem_dropTrailing _ h)

/-- The trailing `trim` of `normalizeKey` never does anything: after the
underscore replacement no whitespace is left. -/
theorem normalizeKey_eq (x : List Char) :
    normalizeKey x =
      stripEdgeUnderscores (collapseNonKey (stripParens (x.map jsToLower))) := by
  unfold normalizeKey
  apply jsTrim_eq_self_of_no_ws
  intro c hc
  exact keyChar_not_ws (mem_collapseNonKeyGo false _ (mem_stripEdgeUnderscores hc))

theorem normalizeKey_chars {x : List Char} {c : Char}
    (h : c ∈ normalizeKey x) : isKeyChar c = true ∨ c = '_' := by
  rw [normalizeKey_eq] at h
  exact mem_collapseNonKeyGo false _ (mem_stripEdgeUnderscores h)

theorem normalizeKey_head (x : List Char) : (normalizeKey x).head? ≠ some '_' := by
  rw [normalizeKey_eq]
  intro h
  unfold stripEdgeUnderscores at h
  rcases dropTrailing_head (fun c => c == '_')
      ((collapseNonKey (stripParens (x.map jsToLower))).dropWhile (fun c => c == '_')) with
    h0 | h0
  · rw [h0] at h
    exact Option.noConfusion h
  · rw [h0] at h
    simpa using dropWhile_head_not (fun c => c == '_') _ h

theorem normalizeKey_last (x : List Char) : (normalizeKey x).getLast? ≠ some '_' := by
  rw [normalizeKey_eq]
  intro h
  simpa using dropTrailing_getLast_not _ h

theorem noTwoNonKey_tail {c : Char} {l : List Char} (h : noTwoNonKey (c :: l)) :
    noTwoNonKey l := by
  cases l with
  | nil => trivial
  | cons d t => exact h.2

theorem noTwo_cons_key {c : Char} {l : List Char} (hc : isKeyChar c = true)
    (hl : noTwoNonKey l) : noTwoNonKey (c :: l) := by
  cases l with
  | nil => trivial
  | cons d t => exact ⟨Or.inl hc, hl⟩

theorem noTwo_cons_of_head_key {c : Char} {l : List Char}
    (h : l = [] ∨ ∃ d t, l = d :: t ∧ isKeyChar d = true)
    (hl : noTwoNonKey l) : noTwoNonKey (c :: l) := by
  rcases h with rfl | ⟨d, t, rfl, hd⟩
  · trivial
  · exact ⟨Or.inr hd, hl⟩

/-- The run-collapser in state `true` (inside a replaced run) emits nothing
until it reaches a `[a-z0-9]` character. -/
theorem collapseGo_true_head :
    ∀ l : List Char, collapseNonKeyGo true l = [] ∨
      ∃ c t, collapseNonKeyGo true l = c :: t ∧ isKeyChar c = true := by
  intro l
  induction l with
  | nil => exact Or.inl rfl
  | cons d t ih =>
    simp only [collapseNonKeyGo]
    by_cases hd : isKeyChar d
    · rw [if_pos hd]
      exact Or.inr ⟨d, _, rfl, hd⟩
    · rw [if_neg hd]
      simp only [if_true]
      exact ih

/-- Output of the run-collapser never has two adjacent non-`[a-z0-9]`
characters. -/
theorem noTwo_collapse :
    ∀ (l : List Char) (b : Bool), noTwoNonKey (collapseNonKeyGo b l) := by
  intro l
  induction l with
  | nil => intro b; trivial
  | cons d t ih =>
    intro b
    simp only [collapseNonKeyGo]
    by_cases hd : isKeyChar d
    · rw [if_pos hd]
      exact noTwo_cons_key hd (ih false)
    · rw [if_neg hd]
      cases b with
      | true =>
        rw [if_pos rfl]
        exact ih true
      | false =>
        rw [if_neg (by simp)]
        exact noTwo_cons_of_head_key (collapseGo_true_head t) (ih true)

theorem noTwo_dropWhile {p : Char → Bool} :
    ∀ l : List Char, noTwoNonKey l → noTwoNonKey (l.dropWhile p) := by
  intro l
  induction l with
  | nil => intro h; simpa using h
  | cons d t ih =>
    intro h
    rw [List.dropWhile_cons]
    by_cases hp : p d
    · rw [if_pos hp]
      exact ih (noTwoNonKey_tail h)
    · rw [if_neg hp]
      exact h

theorem noTwo_dropTrailing {p : Char → Bool} :
    ∀ l : List Char, noTwoNonKey l → noTwoNonKey (dropTrailing p l) := by
  intro l
  induction l with
  | nil => intro h; simpa [dropTrailing] using h
  | cons d t ih =>
    intro h
    simp only [dropTrailing]
    rcases hdt : dropTrailing p t with _ | ⟨x, xs⟩
    · by_cases hp : p d
      · rw [if_pos hp]; trivial
      · rw [if_neg hp]; trivial
    · have hx : noTwoNonKey (x :: xs) := by
        rw [← hdt]
        exact ih (noTwoNonKey_tail h)
      rcases dropTrailing_head p t with h0 | h0
      · rw [h0] at hdt
        exact List.noConfusion hdt
      · rw [hdt] at h0
        cases t with
        | nil => simp at h0
        | cons y ys =>
          simp only [List.head?_cons, Option.some.injEq] at h0
          subst h0
          exact ⟨h.1, hx⟩

theorem stripParensGo_no_paren :
    ∀ (l : List Char) (n : Nat), (∀ c ∈ l, c ≠ '(') → stripParensGo n l = l := by
  intro l
  induction l with
  | nil => intro n _; cases n <;> rfl
  | cons d t ih =>
    intro n h
    cases n with
    | zero => rfl
    | succ m =>
      simp only [stripParensGo]
      rw [if_neg (h d (List.mem_cons_self d t)),
        ih m (fun c hc => h c (List.mem_cons_of_mem d hc))]

theorem stripParens_no_paren {l : List Char} (h : ∀ c ∈ l, c ≠ '(') :
    stripParens l = l :=
  stripParensGo_no_paren l l.length h

theorem jsToLower_fix {c : Char} (h : isKeyChar c = true ∨ c = '_') :
    jsToLower c = c := by
  rcases h with h | rfl
  · rw [isKeyChar, decide_eq_true_eq] at h
    unfold jsToLower
    rw [if_neg (by
      rintro ⟨hA, hZ⟩
      rcases h with ⟨h1, h2⟩ | ⟨h1, h2⟩
      · exact absurd (le_trans h1 hZ) (by decide)
      · exact absurd (le_trans hA h2) (by decide))]
  · decide

theorem map_jsToLower_id {l : List Char}
    (h : ∀ c ∈ l, isKeyChar c = true ∨ c = '_') : l.map jsToLower = l := by
  induction l with
  | nil => rfl
  | cons d t ih =>
    rw [List.map_cons, jsToLower_fix (h d (List.mem_cons_self d t)),
      ih (fun c hc => h c (List.mem_cons_of_mem d hc))]

theorem dropWhile_eq_self_of_head {p : Char → Bool} {l : List Char}
    (h : ∀ c, l.head? = some c → p c = false) : l.dropWhile p = l := by
  cases l with
  | nil => rfl
  | cons d t => rw [List.dropWhile_cons, if_neg (by simp [h d rfl])]

theorem dropTrailing_cons (p : Char → Bool) (d : Char) (t : List Char) :
    dropTrailing p (d :: t) =
      match dropTrailing p t with
      | [] => if p d then [] else [d]
      | r => d :: r := rfl

theorem dropTrailing_idem (p : Char → Bool) :
    ∀ l : List Char, dropTrailing p (dropTrailing p l) = dropTrailing p l := by
  intro l
  induction l with
  | nil => rfl
  | cons d t ih =>
    rw [dropTrailing_cons]
    rcases hdt : dropTrailing p t with _ | ⟨x, xs⟩
    · by_cases hp : p d
      · rw [if_pos hp]
        rfl
      · rw [if_neg hp, dropTrailing_cons]
        simp only [dropTrailing]
        rw [if_neg hp]
    · rw [hdt] at ih
      rw [dropTrailing_cons, ih]

theorem stripEdgeUnderscores_idem (l : List Char) :
    stripEdgeUnderscores (stripEdgeUnderscores l) = stripEdgeUnderscores l := by
  unfold stripEdgeUnderscores
  have h1 : (dropTrailing (fun c => c == '_')
        (l.dropWhile (fun c => c == '_'))).dropWhile (fun c => c == '_') =
      dropTrailing (fun c => c == '_') (l.dropWhile (fun c => c == '_')) := by
    apply dropWhile_eq_self_of_head
    intro c hc
    rcases dropTrailing_head (fun c => c == '_')
        (l.dropWhile (fun c => c == '_')) with h0 | h0
    · rw [h0] at hc
      exact Option.noConfusion hc
    · rw [h0] at hc
      exact dropWhile_head_not (fun c => c == '_') _ hc
  rw [h1, dropTrailing_idem]

/-- The run-collapser fixes any list whose non-`[a-z0-9]` characters are all
underscores and never adjacent. -/
theorem collapseGo_eq_self :
    ∀ l : List Char, (∀ c ∈ l, isKeyChar c = true ∨ c = '_') → noTwoNonKey l →
      collapseNonKeyGo false l = l ∧
      (∀ c t, l = c :: t → isKeyChar c = true → collapseNonKeyGo true l = l) := by
  intro l
  induction l with
  | nil =>
    intro _ _
    exact ⟨rfl, fun c t h => absurd h (by simp)⟩
  | cons d t ih =>
    intro hc hn
    obtain ⟨ih1, ih2⟩ :=
      ih (fun c hc' => hc c (List.mem_cons_of_mem d hc')) (noTwoNonKey_tail hn)
    have hmain : collapseNonKeyGo false (d :: t) = d :: t := by
      simp only [collapseNonKeyGo]
      by_cases hd : isKeyChar d
      · rw [if_pos hd, ih1]
      · have hd' : d = '_' := by
          rcases hc d (List.mem_cons_self d t) with h | h
          · exact absurd h hd
          · exact h
        rw [if_neg hd, if_neg (by simp)]
        subst hd'
        congr 1
        cases t with
        | nil => rfl
        | cons x xs =>
          have hx : isKeyChar x = true := by
            rcases hn.1 with h | h
            · exact absurd h (by decide)
            · exact h
          exact ih2 x xs rfl hx
    refine ⟨hmain, ?_⟩
    rintro c t' heq hkey
    injection heq with h1 h2
    subst h1
    subst h2
    simp only [collapseNonKeyGo]
    rw [if_pos hkey, ih1]

/-- Every record of the driver's output comes from a successful
`parseMeasurementLine` on some line. -/
theorem mem_parseLinesGo {r : PanelMeasurement} :
    ∀ (p : List Char) (ls : List (List Char)), r ∈ parseLinesGo p ls →
      ∃ l m, parseMeasurementLine l = some m ∧ r.toMeasurement = m := by
  intro p ls
  induction ls generalizing p with
  | nil => intro h; simp [parseLinesGo] at h
  | cons l ls ih =>
    intro h
    simp only [parseLinesGo] at h
    by_cases hh : looksLikePanelHeader l
    · rw [if_pos hh] at h
      exact ih _ h
    · rw [if_neg hh] at h
      rcases hpm : parseMeasurementLine l with _ | m
      · rw [hpm] at h
        exact ih _ h
      · rw [hpm] at h
        rcases List.mem_cons.mp h with rfl | h
        · exact ⟨l, m, hpm, rfl⟩
        · exact ih _ h

/-- A successful line parse always sets `key := normalizeKey name` and a
real (non-`none`) numeric value. -/
theorem parseMeasurementLine_fields {l : List Char} {m : Measurement}
    (h : parseMeasurementLine l = some m) :
    m.key = normalizeKey m.name ∧ m.value ≠ none := by
  simp only [parseMeasurementLine] at h
  by_cases hs : (normSpaces l).isEmpty
  · rw [if_pos hs] at h
    exact Option.noConfusion h
  · rw [if_neg hs] at h
    rcases hsp : splitAtFirstDigit (normSpaces l) with _ | ⟨pre, suf⟩
    · rw [hsp] at h
      exact Option.noConfusion h
    · simp only [hsp] at h
      by_cases ht : (jsTrim pre).isEmpty
      · rw [if_pos ht] at h
        exact Option.noConfusion h
      · rw [if_neg ht] at h
        rcases hn : jsNumber ((splitOnSpace (jsTrim suf)).headD []) with _ | v
        · rw [hn] at h
          exact Option.noConfusion h
        · simp only [hn, Option.some.injEq] at h
          subst h
          exact ⟨rfl, by simp⟩

/-! ## Claims about concrete scenario lines -/

/-- C6: parsing the single line `"Haemoglobin (Hb) 12.3 gm/dL 14-18"` with
the measurement-line parser yields key `"haemoglobin"`, name
`"Haemoglobin (Hb)"`, value `12.3`, unit `"gm/dL"`, refLow `14`, refHigh
`18`, no refText, and flag `"L"`. -/
theorem C6_haemoglobin_line :
    parseMeasurementLine "Haemoglobin (Hb) 12.3 gm/dL 14-18".toList = some
      { key := "haemoglobin".toList
        name := "Haemoglobin (Hb)".toList
        value := some (12.3 : ℚ)
        unit := some "gm/dL".toList
        refLow := some 14
        refHigh := some 18
        refText := none
        flag := some Flag.L
        rawLine := "Haemoglobin (Hb) 12.3 gm/dL 14-18".toList } := by
  rw [show (12.3 : ℚ) = mkRat 123 10 by norm_num [Rat.mkRat_eq_div]]
  decide

/-- C1 counterexample: the claim "a text containing the line `Page 1 of 3`
yields no measurement record for that line" is false — on the text
consisting exactly of that line, `parseReportText` produces a record. -/
theorem C1_counterexample :
    parseReportText "Page 1 of 3".toList ≠ [] := by decide

/-- C1 amended: the line `"Page 1 of 3"` is parsed as a measurement (name
`"Page"`, value `1`, unit `"of"`, reference text `"3"`): `parseReportText`
on that single line yields exactly this one record, stamped with the
default panel (lines are processed independently, so its presence leaves
records of other lines unchanged — see `C7_panel_stamping`). -/
theorem C1_page_line :
    parseReportText "Page 1 of 3".toList = [
      { key := "page".toList
        name := "Page".toList
        value := some 1
        unit := some "of".toList
        refLow := none
        refHigh := none
        refText := some "3".toList
        flag := none
        rawLine := "Page 1 of 3".toList
        panel := strGeneral } ] := by decide

/-- C3 counterexample: the claim "a label phrase followed by a date with
no time yields a result with `timePart = "00:00"`" is false for the label
`"Collected On"` — its pattern requires a time token, so the extractor
returns no result here. -/
theorem C3_counterexample :
    extractCollectedAt "Collected On : 16/01/2026".toList = none := by decide

/-- C3 amended: when pattern 1 (`Collected On` + date + time) does not
match anywhere in the text and pattern 2 (`Collection Date` + date) does,
`extractCollectedAt` returns the pattern-2 date with `timePart` defaulting
to `"00:00"`; it returns no result exactly when neither pattern matches. -/
theorem C3_default_time (rawText d : List Char)
    (h1 : scanP1 rawText = none) (h2 : scanP2 rawText = some d) :
    extractCollectedAt rawText = some ⟨d, "00:00".toList⟩ := by
  unfold extractCollectedAt
  rw [h1, h2]

theorem C3_default_time_witness :
    extractCollectedAt "Collection Date: 16/01/2026".toList =
      some ⟨"16/01/2026".toList, "00:00".toList⟩ :=
  C3_default_time _ _ (by decide) (by decide)

/-- C2 counterexample: the trimmed line `"ABCdefg"` (length 7, no digit,
3 uppercase letters) satisfies the claim's predicate (3 ≥ min(8, ⌊3.5⌋))
but the classifier rejects it (the source compares against
`s.length * 0.5` without flooring: 3 < 3.5). -/
theorem C2_counterexample :
    headerSpecC2 "ABCdefg".toList = true ∧
    looksLikePanelHeader "ABCdefg".toList = false := by decide

/-- C2 amended: for a trimmed line, the classifier says header exactly when
the line is non-empty, of length 4..45, digit-free, and its uppercase count
is at least `min(8, length * 0.5)` compared exactly (no flooring) —
equivalently `min(16, length) ≤ 2 · caps`.  Lines failing any of the first
three conditions are never headers (they falsify the right-hand side). -/
theorem C2_header_iff (l : List Char) (htrim : jsTrim l = l) :
    looksLikePanelHeader l = true ↔
      (l ≠ [] ∧ 4 ≤ l.length ∧ l.length ≤ 45 ∧
        (∀ c ∈ l, isDigitChar c = false) ∧
        min 16 l.length ≤ 2 * (l.filter isUpperAZ).length) := by
  unfold looksLikePanelHeader
  rw [htrim]
  by_cases hnil : l = []
  · subst hnil; simp
  · rw [if_neg (by simpa [List.isEmpty_iff] using hnil)]
    by_cases hlen : l.length < 4 || l.length > 45
    · rw [if_pos hlen]
      simp only [Bool.or_eq_true, decide_eq_true_eq] at hlen
      simp only [Bool.false_eq_true, false_iff, not_and]
      intro _ h4 h45
      omega
    · rw [if_neg hlen]
      simp only [Bool.or_eq_true, decide_eq_true_eq, not_or, Nat.not_lt] at hlen
      by_cases hdig : l.any isDigitChar
      · rw [if_pos hdig]
        simp only [List.any_eq_true] at hdig
        obtain ⟨x, hx, hdx⟩ := hdig
        simp only [Bool.false_eq_true, false_iff, not_and]
        intro _ _ _ hall
        exact absurd (hall x hx) (by simp [hdx])
      · rw [if_neg hdig]
        simp only [List.any_eq_true, not_exists, not_and] at hdig
        rw [decide_eq_true_eq, ratHalf_le_iff]
        constructor
        · intro h
          refine ⟨hnil, hlen.1, ?_, ?_, h⟩
          · omega
          · intro c hc
            have := hdig c hc
            simpa using this
        · rintro ⟨_, _, _, _, h⟩
          exact h

theorem C2_header_iff_witness :
    looksLikePanelHeader "LIPID PROFILE".toList = true :=
  (C2_header_iff "LIPID PROFILE".toList (by decide)).mpr (by decide)

/-- C5: the flag computer returns no flag when the value is missing or not
a number (modelled by `none`); its result never depends on `refText`;
it returns `"L"` when `refLow` is present and `value < refLow`; otherwise
`"H"` when `refHigh` is present and `value > refHigh`; otherwise no flag —
in particular a value exactly equal to `refLow` (resp. `refHigh`), with the
other bound consistent, never flags. -/
theorem C5_computeFlag (v : ℚ) (lo hi : Option ℚ) (t t' : Option (List Char)) :
    computeFlag none lo hi t = none ∧
    computeFlag (some v) lo hi t = computeFlag (some v) lo hi t' ∧
    (∀ l, lo = some l → v < l → computeFlag (some v) lo hi t = some Flag.L) ∧
    ((∀ l, lo = some l → ¬ v < l) →
      ∀ h, hi = some h → h < v → computeFlag (some v) lo hi t = some Flag.H) ∧
    ((∀ l, lo = some l → ¬ v < l) → (∀ h, hi = some h → ¬ h < v) →
      computeFlag (some v) lo hi t = none) ∧
    (lo = some v → (∀ h, hi = some h → v ≤ h) →
      computeFlag (some v) lo hi t = none) ∧
    (hi = some v → (∀ l, lo = some l → l ≤ v) →
      computeFlag (some v) lo hi t = none) := by
  refine ⟨rfl, rfl, ?_, ?_, ?_, ?_, ?_⟩
  · rintro l rfl hv
    simp only [computeFlag, if_pos hv]
  · rintro hnl h rfl hv
    rcases lo with _ | l₀
    · simp only [computeFlag, if_pos hv]
    · simp only [computeFlag, if_neg (hnl l₀ rfl), if_pos hv]
  · intro hnl hnh
    rcases lo with _ | l₀ <;> rcases hi with _ | h₀
    · rfl
    · simp only [computeFlag, if_neg (hnh h₀ rfl)]
    · simp only [computeFlag, if_neg (hnl l₀ rfl)]
    · simp only [computeFlag, if_neg (hnl l₀ rfl), if_neg (hnh h₀ rfl)]
  · rintro rfl hle
    rcases hi with _ | h₀
    · simp only [computeFlag, if_neg (lt_irrefl v)]
    · simp only [computeFlag, if_neg (lt_irrefl v), if_neg (not_lt.mpr (hle h₀ rfl))]
  · rintro rfl hge
    rcases lo with _ | l₀
    · simp only [computeFlag, if_neg (lt_irrefl v)]
    · simp only [computeFlag, if_neg (not_lt.mpr (hge l₀ rfl)), if_neg (lt_irrefl v)]

theorem C5_computeFlag_witness :
    computeFlag (some 2) (some 3) (some 8) none = some Flag.L :=
  (C5_computeFlag 2 (some 3) (some 8) none (some ['x'])).2.2.1 3 rfl (by norm_num)

/-- C8: the measurement-line parser (a total function — it can never raise)
yields no record exactly in three cases: no numeric token in the
whitespace-normalized line, empty trimmed name text before the first
numeric token, or a first value-segment token that fails numeric parsing;
in every other case it yields a record.  And `parseReportText` on the empty
string returns the empty sequence, not an error. -/
theorem C8_no_result (line : List Char) :
    (parseMeasurementLine line = none ↔
      splitAtFirstDigit (normSpaces line) = none ∨
      (∃ pre suf, splitAtFirstDigit (normSpaces line) = some (pre, suf) ∧
        jsTrim pre = []) ∨
      (∃ pre suf, splitAtFirstDigit (normSpaces line) = some (pre, suf) ∧
        jsTrim pre ≠ [] ∧
        jsNumber ((splitOnSpace (jsTrim suf)).headD []) = none)) ∧
    parseReportText [] = [] := by
  constructor
  · rcases hsplit : splitAtFirstDigit (normSpaces line) with _ | ⟨pre, suf⟩
    · by_cases hs : (normSpaces line).isEmpty
      · simp only [parseMeasurementLine, if_pos hs]
        simp [hsplit]
      · simp only [parseMeasurementLine, if_neg hs, hsplit]
        simp [hsplit]
    · have hs : ¬ (normSpaces line).isEmpty := by
        intro h
        rw [List.isEmpty_iff] at h
        rw [h] at hsplit
        exact Option.noConfusion hsplit
      simp only [parseMeasurementLine, if_neg hs, hsplit]
      by_cases htrim : (jsTrim pre).isEmpty
      · simp only [if_pos htrim]
        refine iff_of_true (by simp) (Or.inr (Or.inl ⟨pre, suf, rfl, ?_⟩))
        exact List.isEmpty_iff.mp htrim
      · simp only [if_neg htrim]
        rcases hnum : jsNumber ((splitOnSpace (jsTrim suf)).headD []) with _ | v
        · refine iff_of_true (by simp) (Or.inr (Or.inr ⟨pre, suf, rfl, ?_, hnum⟩))
          simpa [List.isEmpty_iff] using htrim
        · refine iff_of_false (by simp) ?_
          rintro (h | ⟨pre', suf', hps, hpre'⟩ | ⟨pre', suf', hps, _, hnum'⟩)
          · exact Option.noConfusion h
          · rw [Option.some.injEq, Prod.mk.injEq] at hps
            exact htrim (by simp [hps.1, hpre'])
          · rw [Option.some.injEq, Prod.mk.injEq] at hps
            rw [← hps.2, hnum] at hnum'
            exact Option.noConfusion hnum'
  · rfl

/-- C10: every record `parseReportText` emits carries a real numeric value
— the data model's "absent/NaN-sentinel" state (`none`) is never observable,
because a line whose value token does not parse yields no record at all. -/
theorem C10_value_not_none (rawText : List Char) (r : PanelMeasurement)
    (hr : r ∈ parseReportText rawText) : r.value ≠ none := by
  obtain ⟨l, m, hlm, hm⟩ := mem_parseLinesGo _ _ hr
  have hv := (parseMeasurementLine_fields hlm).2
  show r.toMeasurement.value ≠ none
  rw [hm]
  exact hv

theorem C10_value_not_none_witness :
    ({ key := "ab".toList, name := "Ab".toList, value := some 1, unit := none,
       refLow := none, refHigh := none, refText := none, flag := none,
       rawLine := "Ab 1".toList, panel := strGeneral } : PanelMeasurement).value ≠
      none :=
  C10_value_not_none "Ab 1".toList _ (by decide)

/-- C4 counterexample: the claim "the key is a NON-EMPTY string matching
`[a-z0-9_]+`" is false — the line `"- 5"` has the non-empty name `"-"`,
which normalizes to the EMPTY key. -/
theorem C4_counterexample :
    parseReportText "- 5".toList = [
      { key := []
        name := ['-']
        value := some 5
        unit := none
        refLow := none
        refHigh := none
        refText := none
        flag := none
        rawLine := "- 5".toList
        panel := strGeneral } ] := by decide

/-- C4 amended: every record's key is a deterministic function of its name
(`key = normalizeKey name`), consists only of `[a-z0-9_]` characters with
no leading and no trailing underscore — but it may be empty. -/
theorem C4_key_wf (rawText : List Char) (r : PanelMeasurement)
    (hr : r ∈ parseReportText rawText) :
    r.key = normalizeKey r.name ∧ keyWF r.key = true := by
  obtain ⟨l, m, hlm, hm⟩ := mem_parseLinesGo _ _ hr
  have hkey := (parseMeasurementLine_fields hlm).1
  have h1 : r.toMeasurement.key = normalizeKey r.toMeasurement.name := by
    rw [hm]
    exact hkey
  refine ⟨h1, ?_⟩
  show keyWF r.toMeasurement.key = true
  rw [h1]
  unfold keyWF
  rw [Bool.and_eq_true, Bool.and_eq_true]
  refine ⟨⟨?_, ?_⟩, ?_⟩
  · rw [List.all_eq_true]
    intro c hc
    rcases normalizeKey_chars hc with h | rfl
    · simp [h]
    · simp
  · rw [decide_eq_true_eq]
    exact normalizeKey_head _
  · rw [decide_eq_true_eq]
    exact normalizeKey_last _

/-- The tail of the indexed specification, re-indexed from a cons cell:
shifting every index by one turns the panel context of `l :: t` into the
panel context of `t` with the default updated by `l`. -/
theorem specRecords_cons_tail (p l : List Char) (t : List (List Char)) :
    List.filterMap
      ((fun i =>
        match (l :: t)[i]? with
        | none => none
        | some l' =>
          if looksLikePanelHeader l' then none
          else
            match parseMeasurementLine l' with
            | none => none
            | some m =>
              some { toMeasurement := m,
                     panel := lastHeaderPanel p ((l :: t).take i) }) ∘ Nat.succ)
      (List.range t.length) =
    specRecords (if looksLikePanelHeader l then normSpaces l else p) t := by
  unfold specRecords
  apply List.filterMap_congr
  intro i _
  simp only [Function.comp_apply, List.getElem?_cons_succ, List.take_succ_cons,
    lastHeaderPanel]

/-- The driver's accumulator loop computes exactly the indexed
specification. -/
theorem parseLinesGo_eq_specRecords :
    ∀ (ls : List (List Char)) (p : List Char),
      parseLinesGo p ls = specRecords p ls := by
  intro ls
  induction ls with
  | nil => intro p; rfl
  | cons l t ih =>
    intro p
    conv_rhs => unfold specRecords
    rw [List.length_cons, List.range_succ_eq_map, List.filterMap_cons,
      List.filterMap_map, specRecords_cons_tail]
    by_cases hh : looksLikePanelHeader l
    · simp only [parseLinesGo, List.getElem?_cons_zero, List.take_zero,
        lastHeaderPanel, hh, if_pos, if_true]
      exact ih _
    · rcases hpm : parseMeasurementLine l with _ | m
      · simp only [parseLinesGo, List.getElem?_cons_zero, List.take_zero,
          lastHeaderPanel, hh, hpm, if_neg, if_false, Bool.false_eq_true]
        exact ih _
      · simp only [parseLinesGo, List.getElem?_cons_zero, List.take_zero,
          lastHeaderPanel, hh, hpm, if_neg, if_false, Bool.false_eq_true]
        rw [ih]

/-- C7: every record of `parseReportText` carries as its `panel` the
whitespace-normalized text of the nearest preceding header line (default
`"General"` when none precedes); header lines themselves produce no
record; records appear in source-line order — all summed up by equality
with the indexed specification `specRecords`. -/
theorem C7_panel_stamping (rawText : List Char) :
    parseReportText rawText = specRecords strGeneral (reportLines rawText) :=
  parseLinesGo_eq_specRecords _ _

/-- C9: `normalizeKey` is idempotent — one pass is already a fixed point,
for EVERY input string: the output consists of `[a-z0-9]` characters and
isolated underscores with none at either edge, and each stage of a second
pass (lowercasing, parenthesis stripping, run replacement, edge-underscore
stripping, trimming) fixes such a string. -/
theorem C9_normalizeKey_idem (x : List Char) :
    normalizeKey (normalizeKey x) = normalizeKey x := by
  have hchars : ∀ c ∈ normalizeKey x, isKeyChar c = true ∨ c = '_' :=
    fun c hc => normalizeKey_chars hc
  show jsTrim (stripEdgeUnderscores (collapseNonKey
      (stripParens ((normalizeKey x).map jsToLower)))) = normalizeKey x
  rw [map_jsToLower_id hchars]
  rw [stripParens_no_paren (fun c hc => by
    rcases hchars c hc with h | rfl
    · intro hEq
      rw [hEq] at h
      exact absurd h (by decide)
    · decide)]
  have hnoTwo : noTwoNonKey (normalizeKey x) := by
    rw [normalizeKey_eq]
    unfold stripEdgeUnderscores
    exact noTwo_dropTrailing _ (noTwo_dropWhile _ (noTwo_collapse _ false))
  have hcoll : collapseNonKey (normalizeKey x) = normalizeKey x :=
    (collapseGo_eq_self _ hchars hnoTwo).1
  rw [hcoll]
  have hstrip : stripEdgeUnderscores (normalizeKey x) = normalizeKey x := by
    rw [normalizeKey_eq]
    exact stripEdgeUnderscores_idem _
  rw [hstrip]
  exact jsTrim_eq_self_of_no_ws (fun c hc => keyChar_not_ws (hchars c hc))

theorem C4_key_wf_witness :
    ({ key := "ab".toList, name := "Ab".toList, value := some 1, unit := none,
       refLow := none, refHigh := none, refText := none, flag := none,
       rawLine := "Ab 1".toList, panel := strGeneral } : PanelMeasurement).key =
        normalizeKey "Ab".toList ∧ keyWF "ab".toList = true :=
  C4_key_wf "Ab 1".toList _ (by decide)

end LabTracker
